import Mathlib

/-!
Verification of the chunk-and-embed similarity index of PolyglotAI
(`app/services/rag.py`) against its specification.

The chunker (`simple_chunk`) is modelled over `List Char` (Python `str`
indexing is by code point).  The similarity index (`InMemoryIndex`) is
modelled as an explicit state record; the two external collaborators —
the embedding provider (OpenAI client) and the vector maths / search
libraries (numpy, faiss) — are modelled by an environment record and by
contract-level definitions.  Python floats are idealised as rationals.
-/

/-! ## Text chunker: `simple_chunk` -/

/-- Python regex `\s` (ASCII range), as used by `re.sub(r"\s+\n", ...)`
and `str.strip()`. -/
def pyWs (c : Char) : Bool :=
  c == ' ' || c == '\t' || c == '\n' || c == '\r' || c == '\x0b' || c == '\x0c'

/-- Index of the last newline character of a list, if any. -/
def lastNl : List Char → Option Nat
  | [] => none
  | c :: cs =>
    match lastNl cs with
    | some i => some (i + 1)
    | none => if c == '\n' then some 0 else none

/-- One pass of `re.sub(r"\s+\n", "\n", text)`: scanning left to right, a
match starting at a whitespace character covers up to the last newline of
the maximal whitespace run (greedy `\s+` with backtracking, needing at
least one whitespace character before the final `\n`), and is replaced by
a single newline.  Structured with explicit fuel so that the function is
structurally recursive (each step consumes at least one character, so
`fuel = length` always suffices; the fuel-exhausted branch is
unreachable from `subWsNl`). -/
def subWsNlF : Nat → List Char → List Char
  | 0, l => l
  | _ + 1, [] => []
  | fuel + 1, c :: cs =>
    if pyWs c then
      match lastNl ((List.takeWhile pyWs (c :: cs)).drop 1) with
      | some i => '\n' :: subWsNlF fuel (cs.drop (i + 1))
      | none => c :: subWsNlF fuel cs
    else c :: subWsNlF fuel cs

/-- The regex substitution `re.sub(r"\s+\n", "\n", text)`. -/
def subWsNl (l : List Char) : List Char := subWsNlF l.length l

/-- Python `str.strip()`: drop leading and trailing whitespace. -/
def pyStrip (l : List Char) : List Char :=
  ((l.dropWhile pyWs).reverse.dropWhile pyWs).reverse

/-- The cleaning step of `simple_chunk`:
`text = re.sub(r"\s+\n", "\n", text).strip()`. -/
def cleanText (l : List Char) : List Char := pyStrip (subWsNl l)

/-- Python slicing `l[a:b]` with int indices (negative indices count from
the end, out-of-range indices are clamped). -/
def pySlice (l : List Char) (a b : Int) : List Char :=
  let n : Int := l.length
  let a2 : Int := if a < 0 then max (n + a) 0 else min a n
  let b2 : Int := if b < 0 then max (n + b) 0 else min b n
  (l.take b2.toNat).drop a2.toNat

/-- The `while start < len(text)` loop of `simple_chunk`, with explicit
fuel;  `none` means the fuel ran out before the loop finished, so
`chunkLoop ... fuel start = none` for every `fuel` exactly when the
Python loop diverges from `start`.  Each iteration computes
`end = min(len(text), start + chunk_chars)`, appends `text[start:end]`,
stops if `end == len(text)`, and otherwise continues from
`end - overlap`. -/
def chunkLoop (text : List Char) (chunk_chars overlap : Int) : Nat → Int → Option (List (List Char))
  | 0, _ => none
  | fuel + 1, start =>
    if start < (text.length : Int) then
      let e : Int := min (text.length : Int) (start + chunk_chars)
      if e = (text.length : Int) then
        some [pySlice text start e]
      else
        (chunkLoop text chunk_chars overlap fuel (e - overlap)).map (pySlice text start e :: ·)
    else
      some []

/-- `simple_chunk(text, chunk_chars, overlap)`.  The loop is run with fuel
`len + 1`, which is sufficient for every terminating run of the Python
loop: whenever the loop terminates the step `chunk_chars - overlap` is
positive or the very first window already reaches the end, so at most
`len + 1` iterations happen.  A `none` result means the Python loop runs
forever.  The final list comprehension drops chunks that are empty after
stripping. -/
def simple_chunk (text : List Char) (chunk_chars overlap : Int) : Option (List (List Char)) :=
  let t := cleanText text
  (chunkLoop t chunk_chars overlap (t.length + 1) 0).map
    (List.filter (fun c => !(pyStrip c).isEmpty))

/-- Re-overlapping concatenation: the first chunk whole, every later chunk
with its `overlap`-character prefix removed. -/
def reassemble (overlap : Nat) : List (List Char) → List Char
  | [] => []
  | c :: cs => c ++ (cs.map (List.drop overlap)).flatten

/-! ## Similarity index: `InMemoryIndex`

Vector components are rationals (idealising Python floats).  The embedding
provider (`self.client.embeddings.create`, closing over the client and the
model name from `__init__`) and the numpy row norm `np.linalg.norm(X, axis=1)`
are external collaborators, modelled by an environment record; an
`embedBatch` result of `none` models a raised provider error. -/

/-- A segment dict `{text, start?, end?, speaker?}`: a required text and
optional provenance fields, passed through unchanged. -/
structure Segment where
  text : String
  info : List (String × String)
deriving DecidableEq

/-- The external collaborators of the index: the embedding provider and
the numpy per-row Euclidean norm (whose value is irrational in general, hence
kept abstract). -/
structure Env where
  embedBatch : List String → Option (List (List ℚ))
  nrm : List ℚ → ℚ

/-- The mutable state of an `InMemoryIndex`: `self.meta`, `self.index`
(the faiss `IndexFlatIP` contents, `None` before the first build) and
`self.dim`. -/
structure IndexState where
  meta : List Segment
  index : Option (List (List ℚ))
  dim : Nat
deriving DecidableEq

/-- `__init__`: no index, empty metadata, dimension 0. -/
def initState : IndexState := { meta := [], index := none, dim := 0 }

/-- Consecutive batches of `B` elements, as produced by
`for i in range(0, len(texts), B): texts[i:i+B]`; the fuel (one unit per
batch) makes the recursion structural, `fuel = length` always suffices
for `B ≥ 1`. -/
def toBatchesGo (B : Nat) : Nat → List String → List (List String)
  | 0, _ => []
  | _ + 1, [] => []
  | fuel + 1, x :: xs => ((x :: xs).take B) :: toBatchesGo B fuel (xs.drop (B - 1))

/-- Split a text list into batches of `B`. -/
def toBatches (B : Nat) (l : List String) : List (List String) := toBatchesGo B l.length l

/-- The provider-call loop of `InMemoryIndex.embed`: one call per batch,
collecting the per-batch vector lists; a single failed call fails the
whole embed (the raised exception propagates). -/
def embedBatches (env : Env) : List (List String) → Option (List (List (List ℚ)))
  | [] => some []
  | b :: bs =>
    match env.embedBatch b, embedBatches env bs with
    | some r, some rs => some (r :: rs)
    | _, _ => none

/-- Modelled contract of `np.vstack(embs).astype("float32")`: fails on an
empty list of batches ("need at least one array to concatenate") or on
ragged rows, otherwise concatenates the batches in order. -/
def vstack (embs : List (List (List ℚ))) : Option (List (List ℚ)) :=
  match embs with
  | [] => none
  | _ =>
    if (embs.flatten).all (fun v => v.length == ((embs.flatten).headD []).length) then
      some embs.flatten
    else
      none

/-- `InMemoryIndex._normalize`: divide every row by its norm plus `1e-12`. -/
def normalizeRows (nrm : List ℚ → ℚ) (X : List (List ℚ)) : List (List ℚ) :=
  X.map fun v => v.map fun x => x / (nrm v + 1 / 1000000000000)

/-- `InMemoryIndex.embed`: batch the texts by 64, call the provider per
batch, stack the results, L2-normalize the rows; a failure at any step
fails the whole embed. -/
def embedM (env : Env) (texts : List String) : Option (List (List ℚ)) :=
  (embedBatches env (toBatches 64 texts)).bind fun embs =>
    (vstack embs).map (normalizeRows env.nrm)

/-- `InMemoryIndex.build`.  Note the faithful statement order: `self.meta`
is assigned BEFORE the fallible embed call, so a failed embed (second
component `false`, modelling the exception propagating to the caller)
leaves the new metadata paired with the old vectors. -/
def buildS (env : Env) (s : IndexState) (segments : List Segment) : IndexState × Bool :=
  let s1 : IndexState := { s with meta := segments }
  match embedM env (segments.map Segment.text) with
  | none => (s1, false)
  | some X => ({ s1 with dim := (X.headD []).length, index := some X }, true)

/-- Inner product of two rows (`faiss.IndexFlatIP` similarity score). -/
def ip (u v : List ℚ) : ℚ := (List.zipWith (· * ·) u v).sum

/-- Modelled contract of `faiss.IndexFlatIP.search` for one query row:
the ids of the stored vectors in non-increasing inner-product order (ties
resolved deterministically by insertion position), truncated to `k` and
padded with `-1` ids when fewer than `k` vectors are stored. -/
def searchIdx (vecs : List (List ℚ)) (qv : List ℚ) (k : Nat) : List Int :=
  let order := (List.range vecs.length).mergeSort
    (fun i j => decide (ip qv (vecs.getD j []) ≤ ip qv (vecs.getD i [])))
  (order.take k).map Int.ofNat ++ List.replicate (k - vecs.length) (-1)

/-- The hit-collection loop of `query`: skip `-1` ids, look the others up
in `self.meta` (an out-of-range id raises, modelled as `none`; the search
contract only produces `-1` or valid positions). -/
def pickMeta (meta : List Segment) : List Int → Option (List Segment)
  | [] => some []
  | idx :: rest =>
    if idx = -1 then
      pickMeta meta rest
    else
      match meta.get? idx.toNat, pickMeta meta rest with
      | some seg, some hits => some (seg :: hits)
      | _, _ => none

/-- `InMemoryIndex.query`.  Returns the hits (`none` models a raised
exception) together with the post-call state; the method assigns no
attribute of `self`, which the state component makes explicit. -/
def queryS (env : Env) (s : IndexState) (q : String) (top_k : Int) : Option (List Segment) × IndexState :=
  match s.index with
  | none => (some [], s)
  | some vecs =>
    match embedM env [q] with
    | none => (none, s)
    | some QV => (pickMeta s.meta (searchIdx vecs (QV.headD []) top_k.toNat), s)

/-- Default segment used only to state lookups totally. -/
def dfltSeg : Segment := { text := "", info := [] }

/-- Specification predicate for claim C3: the hits are the metadata of a
list of stored-vector positions whose inner-product similarities to the
query row are non-increasing along the list. -/
def OrderedHits (vecs : List (List ℚ)) (qv : List ℚ) (meta hits : List Segment) : Prop :=
  ∃ idxs : List Nat,
    (∀ i ∈ idxs, i < vecs.length) ∧
    List.Pairwise (fun i j => ip qv (vecs.getD j []) ≤ ip qv (vecs.getD i [])) idxs ∧
    hits = idxs.map (fun i => meta.getD i dfltSeg)

/-- Concrete provider for witnesses: one all-zero one-dimensional vector
per input text. -/
def envC : Env := { embedBatch := fun ts => some (ts.map fun _ => [0]), nrm := fun _ => 0 }

/-- Concrete failing provider for witnesses: every call raises. -/
def envFail : Env := { embedBatch := fun _ => none, nrm := fun _ => 0 }

/-- Concrete segments for witnesses. -/
def segA : Segment := { text := "alpha", info := [] }

def segB : Segment := { text := "beta", info := [] }

def segN1 : Segment := { text := "new one", info := [] }

def segN2 : Segment := { text := "new two", info := [] }

/-! ## Chunker lemmas -/

lemma pySlice_to_end (l : List Char) (a : Int) (h0 : 0 ≤ a) (h1 : a ≤ (l.length : Int)) :
    pySlice l a (l.length : Int) = l.drop a.toNat := by
  simp only [pySlice]
  rw [if_neg (by omega), if_neg (by omega), min_eq_left h1, min_eq_left le_rfl]
  simp

lemma pySlice_window (l : List Char) (a c : Int) (h0 : 0 ≤ a) (hc : 0 ≤ c)
    (h : a + c ≤ (l.length : Int)) :
    pySlice l a (a + c) = (l.drop a.toNat).take c.toNat := by
  simp only [pySlice]
  rw [if_neg (by omega), if_neg (by omega), min_eq_left (by omega), min_eq_left (by omega)]
  rw [List.drop_take]
  congr 1
  omega

/-- With a positive step, the loop needs at most `len - start` unfoldings
past the current one, so fuel `(len - start).toNat + 1` always suffices. -/
lemma chunkLoop_isSome (t : List Char) (cc ov : Int) (h0 : 0 ≤ ov) (h1 : ov < cc) :
    ∀ fuel : Nat, ∀ start : Int, ((t.length : Int) - start).toNat < fuel →
      (chunkLoop t cc ov fuel start).isSome := by
  intro fuel
  induction fuel with
  | zero => intro start h; omega
  | succ n ih =>
    intro start h
    rw [chunkLoop]
    by_cases hs : start < (t.length : Int)
    · rw [if_pos hs]
      simp only
      by_cases he : min (t.length : Int) (start + cc) = (t.length : Int)
      · rw [if_pos he]; rfl
      · rw [if_neg he]
        cases hcl : chunkLoop t cc ov n (min (t.length : Int) (start + cc) - ov) with
        | none =>
          have h2 := ih (min (t.length : Int) (start + cc) - ov) (by omega)
          rw [hcl] at h2
          simp at h2
        | some r => rfl
    · rw [if_neg hs]; rfl

lemma subWsNlF_all_ws :
    ∀ fuel : Nat, ∀ l : List Char, (∀ c ∈ l, pyWs c = true) →
      ∀ c ∈ subWsNlF fuel l, pyWs c = true := by
  intro fuel
  induction fuel with
  | zero => intro l hl; exact hl
  | succ n ih =>
    intro l hl
    cases l with
    | nil => intro c hc; simp [subWsNlF] at hc
    | cons a as =>
      rw [subWsNlF, if_pos (hl a (List.mem_cons_self a as))]
      cases hln : lastNl ((List.takeWhile pyWs (a :: as)).drop 1) with
      | some i =>
        intro c hc
        rcases List.mem_cons.mp hc with rfl | hc2
        · rfl
        · exact ih _ (fun x hx => hl x (List.mem_cons_of_mem a (List.mem_of_mem_drop hx))) c hc2
      | none =>
        intro c hc
        rcases List.mem_cons.mp hc with rfl | hc2
        · exact hl _ (List.mem_cons_self _ _)
        · exact ih _ (fun x hx => hl x (List.mem_cons_of_mem _ hx)) c hc2

lemma cleanText_of_all_ws (l : List Char) (h : ∀ c ∈ l, pyWs c = true) :
    cleanText l = [] := by
  unfold cleanText pyStrip
  have hws : ∀ c ∈ subWsNl l, pyWs c = true := subWsNlF_all_ws l.length l h
  have : List.dropWhile pyWs (subWsNl l) = [] := List.dropWhile_eq_nil_iff.mpr hws
  rw [this]
  rfl

/-- A state from which the loop repeats itself forever: the window does not
reach the end of the text and the next start equals the current one. -/
lemma chunkLoop_stuck (t : List Char) (cc ov : Int) (start : Int)
    (h1 : start < (t.length : Int))
    (h2 : min (t.length : Int) (start + cc) ≠ (t.length : Int))
    (h3 : min (t.length : Int) (start + cc) - ov = start) :
    ∀ fuel : Nat, chunkLoop t cc ov fuel start = none := by
  intro fuel
  induction fuel with
  | zero => rw [chunkLoop]
  | succ n ih =>
    rw [chunkLoop, if_pos h1]
    simp only
    rw [if_neg h2, h3, ih]
    rfl

/-- Core invariant of the window loop: the produced windows, re-overlapped,
cover exactly the text from `start` on, and whenever the loop runs at least
once the first window has length `min (len - start) chunk_chars`. -/
lemma chunkLoop_reconstruct (t : List Char) (cc ov : Int) (h0 : 0 ≤ ov) (h1 : ov < cc) :
    ∀ fuel : Nat, ∀ start : Int, ∀ cs : List (List Char), 0 ≤ start →
      chunkLoop t cc ov fuel start = some cs →
      reassemble ov.toNat cs = t.drop start.toNat ∧
      (start < (t.length : Int) →
        ∃ c rest, cs = c :: rest ∧ (c.length : Int) = min ((t.length : Int) - start) cc) := by
  intro fuel
  induction fuel with
  | zero => intro start cs h he; rw [chunkLoop] at he; exact Option.noConfusion he
  | succ n ih =>
    intro start cs hstart he
    rw [chunkLoop] at he
    by_cases hs : start < (t.length : Int)
    · rw [if_pos hs] at he
      simp only at he
      by_cases hmin : min (t.length : Int) (start + cc) = (t.length : Int)
      · rw [if_pos hmin] at he
        have hcs : cs = [pySlice t start (min (t.length : Int) (start + cc))] :=
          (Option.some.inj he).symm
        subst hcs
        have hchunk : pySlice t start (min (t.length : Int) (start + cc)) = t.drop start.toNat := by
          rw [hmin]; exact pySlice_to_end t start hstart (le_of_lt hs)
        constructor
        · simp [reassemble, hchunk]
        · intro _
          refine ⟨_, _, rfl, ?_⟩
          rw [hchunk, List.length_drop]
          omega
      · rw [if_neg hmin] at he
        have hmin2 : min (t.length : Int) (start + cc) = start + cc := by omega
        have hlt : start + cc < (t.length : Int) := by omega
        rw [hmin2] at he
        rcases Option.map_eq_some'.mp he with ⟨rest, hrest, hcs⟩
        have hcs2 : cs = pySlice t start (start + cc) :: rest := hcs.symm
        subst hcs2
        obtain ⟨hA, hB⟩ := ih (start + cc - ov) rest (by omega) hrest
        obtain ⟨c2, rest2, hr2, hlen2⟩ := hB (by omega)
        subst hr2
        have hov_le : ov.toNat ≤ c2.length := by omega
        have hchunk : pySlice t start (start + cc) = (t.drop start.toNat).take cc.toNat :=
          pySlice_window t start cc hstart (by omega) (by omega)
        constructor
        · simp only [reassemble, List.map_cons, List.flatten_cons] at hA ⊢
          have e1 : List.drop ov.toNat c2 ++ (rest2.map (List.drop ov.toNat)).flatten
              = t.drop (start.toNat + cc.toNat) := by
            rw [← List.drop_append_of_le_length hov_le, hA, List.drop_drop]
            congr 1
            omega
          have e2 : t.drop (start.toNat + cc.toNat) = (t.drop start.toNat).drop cc.toNat :=
            (List.drop_drop cc.toNat start.toNat t).symm
          rw [e1, e2, hchunk, List.take_append_drop]
        · intro _
          refine ⟨_, _, rfl, ?_⟩
          rw [hchunk, List.length_take, List.length_drop]
          omega
    · rw [if_neg hs] at he
      have hcs : cs = [] := (Option.some.inj he).symm
      subst hcs
      refine ⟨?_, fun hlt => absurd hlt (by omega)⟩
      have : (t.length : Int) ≤ start := by omega
      rw [List.drop_eq_nil_of_le (by omega : t.length ≤ start.toNat)]
      rfl

/-- Every window has length at most `chunk_chars`, and every window except
the final one has length exactly `chunk_chars`. -/
lemma chunkLoop_windowLens (t : List Char) (cc ov : Int) (h0 : 0 ≤ ov) (h1 : ov < cc) :
    ∀ fuel : Nat, ∀ start : Int, ∀ cs : List (List Char), 0 ≤ start →
      chunkLoop t cc ov fuel start = some cs →
      (∀ c ∈ cs, (c.length : Int) ≤ cc) ∧ (∀ c ∈ cs.dropLast, (c.length : Int) = cc) := by
  intro fuel
  induction fuel with
  | zero => intro start cs h he; rw [chunkLoop] at he; exact Option.noConfusion he
  | succ n ih =>
    intro start cs hstart he
    rw [chunkLoop] at he
    by_cases hs : start < (t.length : Int)
    · rw [if_pos hs] at he
      simp only at he
      by_cases hmin : min (t.length : Int) (start + cc) = (t.length : Int)
      · rw [if_pos hmin] at he
        have hcs : cs = [pySlice t start (min (t.length : Int) (start + cc))] :=
          (Option.some.inj he).symm
        subst hcs
        have hchunk : pySlice t start (min (t.length : Int) (start + cc)) = t.drop start.toNat := by
          rw [hmin]; exact pySlice_to_end t start hstart (le_of_lt hs)
        constructor
        · intro c hc
          have hc2 : c = pySlice t start (min (t.length : Int) (start + cc)) :=
            List.mem_singleton.mp hc
          subst hc2
          rw [hchunk, List.length_drop]
          omega
        · intro c hc
          rw [List.dropLast_single] at hc
          exact absurd hc (List.not_mem_nil c)
      · rw [if_neg hmin] at he
        have hmin2 : min (t.length : Int) (start + cc) = start + cc := by omega
        have hlt : start + cc < (t.length : Int) := by omega
        rw [hmin2] at he
        rcases Option.map_eq_some'.mp he with ⟨rest, hrest, hcs⟩
        have hcs2 : cs = pySlice t start (start + cc) :: rest := hcs.symm
        subst hcs2
        obtain ⟨IH1, IH2⟩ := ih (start + cc - ov) rest (by omega) hrest
        have hchunk : pySlice t start (start + cc) = (t.drop start.toNat).take cc.toNat :=
          pySlice_window t start cc hstart (by omega) (by omega)
        have hlen : ((pySlice t start (start + cc)).length : Int) = cc := by
          rw [hchunk, List.length_take, List.length_drop]
          omega
        constructor
        · intro c hc
          rcases List.mem_cons.mp hc with hce | hc2
          · subst hce; exact le_of_eq hlen
          · exact IH1 c hc2
        · intro c hc
          cases rest with
          | nil => rw [List.dropLast_single] at hc; exact absurd hc (List.not_mem_nil c)
          | cons r rs =>
            rw [List.dropLast_cons₂] at hc
            rcases List.mem_cons.mp hc with hce | hc2
            · subst hce; exact hlen
            · exact IH2 c hc2
    · rw [if_neg hs] at he
      have hcs : cs = [] := (Option.some.inj he).symm
      subst hcs
      exact ⟨fun c hc => absurd hc (List.not_mem_nil c),
        fun c hc => absurd hc (by simp)⟩

/-- Dropping elements via `filter` preserves the two window-length
invariants: all kept chunks still come from the original list, and a kept
chunk that is not the last kept one is also not the last original one. -/
lemma filter_preserves_windowLens (p : List Char → Bool) (cc : Int) :
    ∀ cs : List (List Char),
      (∀ c ∈ cs, (c.length : Int) ≤ cc) → (∀ c ∈ cs.dropLast, (c.length : Int) = cc) →
      (∀ c ∈ cs.filter p, (c.length : Int) ≤ cc) ∧
        (∀ c ∈ (cs.filter p).dropLast, (c.length : Int) = cc) := by
  intro cs
  induction cs with
  | nil => intro _ _; simp
  | cons a as ih =>
    intro H1 H2
    have hH1 : ∀ c ∈ as, (c.length : Int) ≤ cc := fun c hc => H1 c (List.mem_cons_of_mem _ hc)
    have hH2 : ∀ c ∈ as.dropLast, (c.length : Int) = cc := by
      intro c hc
      apply H2
      cases as with
      | nil => exact absurd hc (by simp)
      | cons b bs => rw [List.dropLast_cons₂]; exact List.mem_cons_of_mem _ hc
    obtain ⟨IH1, IH2⟩ := ih hH1 hH2
    rw [List.filter_cons]
    by_cases hp : p a = true
    · rw [if_pos hp]
      refine ⟨?_, ?_⟩
      · intro c hc
        rcases List.mem_cons.mp hc with hce | hc2
        · subst hce; exact H1 _ (List.mem_cons_self _ _)
        · exact IH1 c hc2
      · intro c hc
        cases hf : as.filter p with
        | nil => rw [hf] at hc; simp at hc
        | cons b bs =>
          rw [hf, List.dropLast_cons₂] at hc
          rcases List.mem_cons.mp hc with hce | hc2
          · subst hce
            apply H2
            cases as with
            | nil => rw [List.filter_nil] at hf; exact absurd hf (by simp)
            | cons x xs => rw [List.dropLast_cons₂]; exact List.mem_cons_self _ _
          · apply IH2; rw [hf]; exact hc2
    · rw [if_neg hp]
      exact ⟨IH1, IH2⟩

-- concrete validation of the model (outputs cross-checked against the reference behaviour)
example : cleanText "a   b".toList = "a   b".toList := by decide
example : simple_chunk "a   b".toList 1 0 = some [['a'], ['b']] := by decide
example : simple_chunk "abcdef".toList 3 1 = some ["abc".toList, "cde".toList, "ef".toList] := by decide
example : subWsNl "x \n\n\ny".toList = "x\ny".toList := by decide
example : simple_chunk "   ".toList 1000 150 = some [] := by decide
example : reassemble 1 ["abc".toList, "cde".toList, "ef".toList] = "abcdef".toList := by decide

/-! ## Claim theorems: chunker -/

/-- Claim C2 (code bug evidence): `simple_chunk` performs no parameter
validation at all.  With `overlap = chunk_chars = 2` on the three-character
text "abc" the window loop repeats the same start forever — for every fuel
the loop is still unfinished — so the call neither reports a configuration
error nor returns: it hangs, and the fixed-fuel model returns `none`. -/
theorem simple_chunk_invalid_params_diverge :
    (∀ fuel : Nat, chunkLoop ('a' :: 'b' :: 'c' :: []) 2 2 fuel 0 = none) ∧
    simple_chunk ('a' :: 'b' :: 'c' :: []) 2 2 = none := by
  constructor
  · exact chunkLoop_stuck _ 2 2 0 (by decide) (by decide) (by decide)
  · decide

/-- Claim C5 counterexample: with the valid parameters `chunk_size = 1`,
`overlap = 0` and the (already clean) text "a   b", the chunks actually
returned by `simple_chunk` are `["a", "b"]` — the whitespace-only windows
were dropped — and their re-overlapped concatenation "ab" is not the
cleaned input text. -/
theorem chunk_reassembly_counterexample :
    ((0 : Int) ≤ 0 ∧ (0 : Int) < 1) ∧
    cleanText ("a   b".toList) = "a   b".toList ∧
    simple_chunk ("a   b".toList) 1 0 = some [['a'], ['b']] ∧
    reassemble 0 [['a'], ['b']] ≠ cleanText ("a   b".toList) := by
  decide

/-- Claim C5 (amended): for valid parameters `0 ≤ overlap < chunk_size`,
the raw window sequence produced by the window loop of the chunker — before
whitespace-only windows are dropped — concatenated after removing the
`overlap`-character prefix of each window after the first, reconstructs
exactly the cleaned input text. -/
theorem chunk_raw_windows_reassemble (t : List Char) (cc ov : Int)
    (h0 : 0 ≤ ov) (h1 : ov < cc) (cs : List (List Char))
    (h : chunkLoop (cleanText t) cc ov ((cleanText t).length + 1) 0 = some cs) :
    reassemble ov.toNat cs = cleanText t := by
  have hr := (chunkLoop_reconstruct (cleanText t) cc ov h0 h1
    ((cleanText t).length + 1) 0 cs le_rfl h).1
  simpa using hr

/-- Witness for C5 (amended) at text "abcdef", `chunk_size = 3`,
`overlap = 1`. -/
theorem chunk_raw_windows_reassemble_witness :
    ((0 : Int) ≤ 1 ∧ (1 : Int) < 3 ∧
      chunkLoop (cleanText "abcdef".toList) 3 1 ((cleanText "abcdef".toList).length + 1) 0
        = some ["abc".toList, "cde".toList, "ef".toList]) ∧
    reassemble (1 : Int).toNat ["abc".toList, "cde".toList, "ef".toList]
      = cleanText "abcdef".toList :=
  ⟨⟨by decide, by decide, by decide⟩,
    chunk_raw_windows_reassemble _ 3 1 (by decide) (by decide) _ (by decide)⟩

/-- Claim C6: with valid parameters `0 ≤ overlap < chunk_size` the window
loop makes monotonic forward progress — whenever the current window does
not reach the end of the text, the loop continues exactly at
`start + (chunk_chars - overlap)` — and therefore terminates within
`length + 1` iterations from the initial start `0`. -/
theorem chunkLoop_progress_and_termination (t : List Char) (cc ov : Int)
    (h0 : 0 ≤ ov) (h1 : ov < cc) :
    (∀ fuel : Nat, ∀ start : Int, 0 ≤ start → start + cc < (t.length : Int) →
        chunkLoop t cc ov (fuel + 1) start
          = (chunkLoop t cc ov fuel (start + (cc - ov))).map (pySlice t start (start + cc) :: ·)) ∧
    (chunkLoop t cc ov (t.length + 1) 0).isSome := by
  constructor
  · intro fuel start h2 h3
    rw [chunkLoop, if_pos (by omega : start < (t.length : Int))]
    simp only
    rw [show min (t.length : Int) (start + cc) = start + cc from by omega]
    rw [if_neg (by omega : ¬(start + cc = (t.length : Int)))]
    rw [show start + cc - ov = start + (cc - ov) from by ring]
  · exact chunkLoop_isSome t cc ov h0 h1 (t.length + 1) 0 (by omega)

/-- Witness for C6 at text "abcd", `chunk_size = 2`, `overlap = 1`. -/
theorem chunkLoop_progress_and_termination_witness :
    ((0 : Int) ≤ 1 ∧ (1 : Int) < 2) ∧
    ((∀ fuel : Nat, ∀ start : Int, 0 ≤ start → start + 2 < (("abcd".toList).length : Int) →
        chunkLoop "abcd".toList 2 1 (fuel + 1) start
          = (chunkLoop "abcd".toList 2 1 fuel (start + (2 - 1))).map
              (pySlice "abcd".toList start (start + 2) :: ·)) ∧
      (chunkLoop "abcd".toList 2 1 (("abcd".toList).length + 1) 0).isSome) :=
  ⟨⟨by decide, by decide⟩,
    chunkLoop_progress_and_termination "abcd".toList 2 1 (by decide) (by decide)⟩

/-- Claim C8: on an input consisting only of whitespace (hence also on the
empty string) the chunker returns an empty sequence, for every parameter
pair: the cleaning step strips the text to nothing, so the window loop
never runs. -/
theorem simple_chunk_whitespace_empty (t : List Char) (h : ∀ c ∈ t, pyWs c = true)
    (cc ov : Int) : simple_chunk t cc ov = some [] := by
  simp only [simple_chunk]
  rw [cleanText_of_all_ws t h]
  rfl

/-- Witness for C8 at the empty string and at the all-whitespace string
" \t " with the source defaults `chunk_chars = 1000`, `overlap = 150`. -/
theorem simple_chunk_whitespace_empty_witness :
    ((∀ c ∈ ([] : List Char), pyWs c = true) ∧ (∀ c ∈ " \t ".toList, pyWs c = true)) ∧
    simple_chunk ([] : List Char) 1000 150 = some [] ∧
    simple_chunk (" \t ".toList) 1000 150 = some [] :=
  ⟨⟨by decide, by decide⟩,
    simple_chunk_whitespace_empty _ (by decide) 1000 150,
    simple_chunk_whitespace_empty _ (by decide) 1000 150⟩

/-- Claim C9: for valid parameters `0 ≤ overlap < chunk_size`, every chunk
returned by `simple_chunk` has length at most `chunk_chars`, and every
returned chunk except possibly the last has length exactly `chunk_chars`. -/
theorem simple_chunk_length_invariant (t : List Char) (cc ov : Int)
    (h0 : 0 ≤ ov) (h1 : ov < cc) (cs : List (List Char))
    (h : simple_chunk t cc ov = some cs) :
    (∀ c ∈ cs, (c.length : Int) ≤ cc) ∧ (∀ c ∈ cs.dropLast, (c.length : Int) = cc) := by
  simp only [simple_chunk] at h
  rcases Option.map_eq_some'.mp h with ⟨cs0, hcs0, hfil⟩
  have hfil2 : cs = cs0.filter (fun c => !(pyStrip c).isEmpty) := hfil.symm
  subst hfil2
  obtain ⟨L1, L2⟩ := chunkLoop_windowLens (cleanText t) cc ov h0 h1 _ 0 cs0 le_rfl hcs0
  exact filter_preserves_windowLens _ cc cs0 L1 L2

/-- Witness for C9 at text "abcde", `chunk_size = 2`, `overlap = 1`. -/
theorem simple_chunk_length_invariant_witness :
    ((0 : Int) ≤ 1 ∧ (1 : Int) < 2 ∧
      simple_chunk "abcde".toList 2 1
        = some ["ab".toList, "bc".toList, "cd".toList, "de".toList]) ∧
    ((∀ c ∈ ["ab".toList, "bc".toList, "cd".toList, "de".toList], (c.length : Int) ≤ 2) ∧
      (∀ c ∈ (["ab".toList, "bc".toList, "cd".toList, "de".toList] : List (List Char)).dropLast,
        (c.length : Int) = 2)) :=
  ⟨⟨by decide, by decide, by decide⟩,
    simple_chunk_length_invariant "abcde".toList 2 1 (by decide) (by decide) _ (by decide)⟩

/-! ## Index lemmas -/

lemma embedBatches_forall2 (env : Env) :
    ∀ bs rs, embedBatches env bs = some rs →
      List.Forall₂ (fun b r => env.embedBatch b = some r) bs rs := by
  intro bs
  induction bs with
  | nil =>
    intro rs h
    have : ([] : List (List (List ℚ))) = rs := Option.some.inj h
    subst this
    exact List.Forall₂.nil
  | cons b bs ih =>
    intro rs h
    simp only [embedBatches] at h
    cases hcall : env.embedBatch b with
    | none => rw [hcall] at h; exact Option.noConfusion h
    | some r =>
      cases hrec : embedBatches env bs with
      | none => rw [hcall, hrec] at h; exact Option.noConfusion h
      | some rs0 =>
        rw [hcall, hrec] at h
        have : r :: rs0 = rs := Option.some.inj h
        subst this
        exact List.Forall₂.cons hcall (ih rs0 hrec)

lemma forall2_flatten_length {bs : List (List String)} {rs : List (List (List ℚ))}
    (h : List.Forall₂ (fun b r => r.length = b.length) bs rs) :
    rs.flatten.length = bs.flatten.length := by
  induction h with
  | nil => rfl
  | cons h1 _ ih => simp only [List.flatten_cons, List.length_append, h1, ih]

lemma toBatchesGo_flatten (B : Nat) (hB : 1 ≤ B) :
    ∀ fuel : Nat, ∀ l : List String, l.length ≤ fuel → (toBatchesGo B fuel l).flatten = l := by
  intro fuel
  induction fuel with
  | zero =>
    intro l hl
    cases l with
    | nil => rfl
    | cons x xs => simp at hl
  | succ n ih =>
    intro l hl
    cases l with
    | nil => rfl
    | cons x xs =>
      rw [toBatchesGo, List.flatten_cons,
        ih (xs.drop (B - 1)) (by simp only [List.length_cons] at hl; simp only [List.length_drop]; omega)]
      have htake : (x :: xs).take B = x :: xs.take (B - 1) := by
        cases B with
        | zero => omega
        | succ m => simp
      rw [htake, List.cons_append, List.take_append_drop]

lemma toBatches_flatten (B : Nat) (hB : 1 ≤ B) (l : List String) :
    (toBatches B l).flatten = l :=
  toBatchesGo_flatten B hB l.length l le_rfl

lemma vstack_eq_flatten (embs : List (List (List ℚ))) (Y : List (List ℚ))
    (h : vstack embs = some Y) : Y = embs.flatten := by
  simp only [vstack] at h
  cases embs with
  | nil => exact Option.noConfusion h
  | cons e es =>
    by_cases hc : ((e :: es).flatten).all
        (fun v => v.length == (((e :: es).flatten).headD []).length) = true
    · rw [if_pos hc] at h
      exact (Option.some.inj h).symm
    · rw [if_neg hc] at h
      exact Option.noConfusion h

/-- Under the provider contract (one vector per input string), a successful
embed returns one normalized row per input text. -/
lemma embedM_length (env : Env)
    (hwf : ∀ ts r, env.embedBatch ts = some r → r.length = ts.length)
    (ts : List String) (X : List (List ℚ)) (h : embedM env ts = some X) :
    X.length = ts.length := by
  simp only [embedM] at h
  rcases Option.bind_eq_some.mp h with ⟨embs, hb, hmap⟩
  rcases Option.map_eq_some'.mp hmap with ⟨Y, hv, hX⟩
  have hX2 : X = normalizeRows env.nrm Y := hX.symm
  subst hX2
  have hf3 : List.Forall₂ (fun (b : List String) (r : List (List ℚ)) => r.length = b.length)
      (toBatches 64 ts) embs :=
    (embedBatches_forall2 env _ _ hb).imp (fun a b hab => hwf a b hab)
  calc (normalizeRows env.nrm Y).length
      = Y.length := by simp [normalizeRows]
    _ = embs.flatten.length := by rw [vstack_eq_flatten embs Y hv]
    _ = (toBatches 64 ts).flatten.length := forall2_flatten_length hf3
    _ = ts.length := by rw [toBatches_flatten 64 (by norm_num) ts]

lemma pickMeta_skip (meta : List Segment) (rest : List Int) :
    pickMeta meta (-1 :: rest) = pickMeta meta rest := by
  rw [pickMeta, if_pos rfl]

lemma pickMeta_pad (meta : List Segment) :
    ∀ l : List Int, ∀ m : Nat,
      pickMeta meta (l ++ List.replicate m (-1)) = pickMeta meta l := by
  intro l
  induction l with
  | nil =>
    intro m
    induction m with
    | zero => rfl
    | succ n ihm =>
      simp only [List.nil_append] at ihm ⊢
      rw [List.replicate_succ, pickMeta_skip]
      exact ihm
  | cons idx rest ih =>
    intro m
    rw [List.cons_append]
    simp only [pickMeta]
    by_cases hidx : idx = -1
    · rw [if_pos hidx, if_pos hidx]
      exact ih m
    · rw [if_neg hidx, if_neg hidx, ih m]

lemma pickMeta_map (meta : List Segment) :
    ∀ idxs : List Nat, (∀ i ∈ idxs, i < meta.length) →
      pickMeta meta (idxs.map Int.ofNat)
        = some (idxs.map fun i => meta.getD i dfltSeg) := by
  intro idxs
  induction idxs with
  | nil => intro _; rfl
  | cons i rest ih =>
    intro hb
    rw [List.map_cons, List.map_cons]
    simp only [pickMeta]
    have hne : ¬(Int.ofNat i = -1) := by rw [Int.ofNat_eq_natCast]; omega
    rw [if_neg hne]
    have hi : i < meta.length := hb i (List.mem_cons_self _ _)
    have hget : meta.get? (Int.toNat (Int.ofNat i)) = some (meta.getD i dfltSeg) := by
      have h1 : Int.toNat (Int.ofNat i) = i := by rw [Int.ofNat_eq_natCast]; omega
      rw [h1, List.get?_eq_get hi, List.getD_eq_getElem meta dfltSeg hi]
      simp
    rw [hget, ih (fun j hj => hb j (List.mem_cons_of_mem _ hj))]

lemma toBatches_short (B : Nat) (l : List String) (h1 : l ≠ []) (h2 : l.length ≤ B) :
    toBatches B l = [l] := by
  cases l with
  | nil => exact absurd rfl h1
  | cons x xs =>
    simp only [toBatches, List.length_cons]
    rw [toBatchesGo, List.take_of_length_le (by simpa using h2)]
    have hdrop : xs.drop (B - 1) = [] :=
      List.drop_eq_nil_of_le (by simp only [List.length_cons] at h2; omega)
    rw [hdrop]
    cases xs.length with
    | zero => rfl
    | succ n => rfl

/-- Evaluation of `embed` under the all-zero one-vector-per-text provider:
every stored row is `[0]`, since `0` divided by any norm is `0`. -/
lemma embedM_envC_small (ts : List String) (h1 : ts ≠ []) (h2 : ts.length ≤ 64) :
    embedM envC ts = some (ts.map fun _ => ([0] : List ℚ)) := by
  simp only [embedM]
  rw [toBatches_short 64 ts h1 h2]
  cases ts with
  | nil => exact absurd rfl h1
  | cons t ts2 =>
    simp only [embedBatches, envC]
    simp only [Option.some_bind]
    have hall : (((t :: ts2).map fun _ => ([0] : List ℚ)) :: []).flatten.all
        (fun v => v.length == ((((t :: ts2).map fun _ => ([0] : List ℚ)) :: []).flatten.headD []).length)
        = true := by
      simp only [List.flatten, List.append_nil, List.map_cons, List.headD_cons,
        List.all_eq_true]
      intro v hv
      rcases List.mem_cons.mp hv with hve | hv2
      · subst hve; rfl
      · rcases List.mem_map.mp hv2 with ⟨x, _, hvx⟩
        subst hvx; rfl
    simp only [vstack, if_pos hall]
    simp only [Option.map_some', Option.some.injEq]
    simp only [normalizeRows, List.flatten, List.append_nil, List.map_map, List.map_cons]
    congr 1
    · simp [zero_div]
    · exact List.map_congr_left (fun x _ => by simp [Function.comp_apply, zero_div])

/-- Evaluation of `build` under the all-zero provider. -/
lemma buildS_envC (s : IndexState) (segs : List Segment) (h1 : segs ≠ []) (h2 : segs.length ≤ 64) :
    buildS envC s segs
      = ({ meta := segs, index := some (segs.map fun _ => ([0] : List ℚ)), dim := 1 }, true) := by
  simp only [buildS]
  rw [embedM_envC_small (segs.map Segment.text) (by simpa using h1) (by simpa using h2)]
  cases segs with
  | nil => exact absurd rfl h1
  | cons a as => simp [List.map_map, Function.comp_def]

/-- Evaluation of the search contract over a single stored vector. -/
lemma searchIdx_single (v qv : List ℚ) : searchIdx [v] qv 1 = [Int.ofNat 0] := by
  have hrange : List.range 1 = [0] := rfl
  simp [searchIdx, hrange]

/-! ## Claim theorems: similarity index -/

/-- Claim C4: querying a freshly constructed index (on which `build` was
never called) returns an empty hit list without raising, for every
environment, query string and `top_k`, and leaves the state unchanged. -/
theorem query_fresh_index_empty (env : Env) (q : String) (k : Int) :
    queryS env initState q k = (some [], initState) := rfl

/-- Claim C10: `build` with an empty segment list always fails — batching
produces no provider calls and stacking an empty list of batches raises —
so an empty (e.g. whitespace-only) corpus can never be built; the failure
happens after `self.meta` was already set to the empty list. -/
theorem build_empty_segments_error (env : Env) (s : IndexState) :
    buildS env s [] = ({ s with meta := [] }, false) := rfl

/-- Claim C7: `query` never mutates the index state, and a successful
`build` replaces the state wholesale — its result does not depend on the
prior state at all. -/
theorem query_pure_build_wholesale (env : Env) (s s1 s2 : IndexState) (q : String) (k : Int)
    (segs : List Segment) (hb : (buildS env s1 segs).2 = true) :
    (queryS env s q k).2 = s ∧ buildS env s1 segs = buildS env s2 segs := by
  constructor
  · rcases hidx : s.index with _ | vecs
    · simp [queryS, hidx]
    · rcases hq : embedM env [q] with _ | QV <;> simp [queryS, hidx, hq]
  · simp only [buildS] at hb ⊢
    rcases he : embedM env (segs.map Segment.text) with _ | X
    · rw [he] at hb
      simp at hb
    · rfl

/-- Witness for C7: a concrete successful build from two different prior
states, and a query that leaves a concrete state unchanged. -/
theorem query_pure_build_wholesale_witness :
    (buildS envC { meta := [segB], index := some [[0]], dim := 1 } [segA]).2 = true ∧
    ((queryS envC initState "hello" 5).2 = initState ∧
      buildS envC { meta := [segB], index := some [[0]], dim := 1 } [segA]
        = buildS envC initState [segA]) := by
  have hb : (buildS envC { meta := [segB], index := some [[0]], dim := 1 } [segA]).2 = true := by
    rw [buildS_envC _ [segA] (by simp) (by simp)]
  exact ⟨hb, query_pure_build_wholesale envC initState _ initState "hello" 5 [segA] hb⟩

/-- Claim C1 (code bug evidence): `build` assigns `self.meta = segments`
before the fallible embed call.  Concretely: a successful build stores the
single segment `segA`; a second build of two new segments fails at the
embedding step, yet afterwards the state pairs the new metadata with the
old vectors; a subsequent query returns `segN1` — a segment of the failed
attempt, not of the last successful build. -/
theorem build_failure_meta_overwrite :
    buildS envC initState [segA]
      = ({ meta := [segA], index := some [[0]], dim := 1 }, true) ∧
    buildS envFail { meta := [segA], index := some [[0]], dim := 1 } [segN1, segN2]
      = ({ meta := [segN1, segN2], index := some [[0]], dim := 1 }, false) ∧
    (queryS envC { meta := [segN1, segN2], index := some [[0]], dim := 1 } "any question" 1).1
      = some [segN1] ∧
    segN1 ∉ [segA] := by
  refine ⟨?_, ?_, ?_, ?_⟩
  · rw [buildS_envC initState [segA] (by simp) (by simp)]
    simp
  · simp only [buildS, embedM, List.map_cons, List.map_nil]
    rw [toBatches_short 64 [segN1.text, segN2.text] (by simp) (by simp)]
    simp [embedBatches, envFail]
  · simp only [queryS]
    rw [embedM_envC_small ["any question"] (by simp) (by simp)]
    simp only [List.map_cons, List.map_nil, List.headD_cons, Int.toNat_one]
    rw [searchIdx_single]
    simp [pickMeta]
  · simp [segN1, segA]

/-- Claim C3: on an index whose most recent `build` succeeded (under the
provider contract of one vector per input string), any query that returns
does so with at most `top_k` hits, every hit is one of the segment records
passed to that build, and the hits are ordered by non-increasing
inner-product similarity of the stored vectors to the query row — the
quantity the source computes as cosine similarity, all stored vectors
being unit-normalized. -/
theorem query_after_build_topk (env envq : Env) (s0 s : IndexState) (segs : List Segment)
    (q : String) (k : Int) (hits : List Segment)
    (hwf : ∀ ts r, env.embedBatch ts = some r → r.length = ts.length)
    (hb : buildS env s0 segs = (s, true))
    (_hk : 0 < k)
    (hq : (queryS envq s q k).1 = some hits) :
    hits.length ≤ k.toNat ∧ (∀ x ∈ hits, x ∈ segs) ∧
    ∃ vecs X, s.index = some vecs ∧ embedM envq [q] = some X ∧
      OrderedHits vecs (X.headD []) segs hits := by
  simp only [buildS] at hb
  revert hb
  cases he : embedM env (segs.map Segment.text) with
  | none =>
    intro hb
    simp at hb
  | some X0 =>
    intro hb
    simp only [Prod.mk.injEq] at hb
    obtain ⟨hs, -⟩ := hb
    subst hs
    have hlen : X0.length = segs.length := by
      have h3 := embedM_length env hwf (segs.map Segment.text) X0 he
      simpa using h3
    simp only [queryS] at hq
    revert hq
    cases hqe : embedM envq [q] with
    | none =>
      intro hq
      simp at hq
    | some QV =>
      intro hq
      simp only at hq
      set qv := QV.headD [] with hqv
      set le : Nat → Nat → Bool :=
        fun i j => decide (ip qv (X0.getD j []) ≤ ip qv (X0.getD i [])) with hle
      set idxs := ((List.range X0.length).mergeSort le).take k.toNat with hidxs
      have hidxs_def : searchIdx X0 qv k.toNat
          = idxs.map Int.ofNat ++ List.replicate (k.toNat - X0.length) (-1) := rfl
      rw [hidxs_def, pickMeta_pad] at hq
      have hbnd0 : ∀ i ∈ idxs, i < X0.length := by
        intro i hi
        rw [hidxs] at hi
        have h1 : i ∈ (List.range X0.length).mergeSort le := List.mem_of_mem_take hi
        exact List.mem_range.mp (List.mem_mergeSort.mp h1)
      have hbnd : ∀ i ∈ idxs, i < segs.length := by
        intro i hi
        rw [← hlen]
        exact hbnd0 i hi
      rw [pickMeta_map segs idxs hbnd] at hq
      have hhits : hits = idxs.map (fun i => segs.getD i dfltSeg) := (Option.some.inj hq).symm
      have htrans : ∀ a b c : Nat, le a b = true → le b c = true → le a c = true := by
        intro a b c hab hbc
        simp only [hle, decide_eq_true_eq] at hab hbc ⊢
        exact le_trans hbc hab
      have htotal : ∀ a b : Nat, (le a b || le b a) = true := by
        intro a b
        simp only [hle, Bool.or_eq_true, decide_eq_true_eq]
        exact le_total _ _
      have hsorted : List.Pairwise (fun a b => le a b = true)
          ((List.range X0.length).mergeSort le) :=
        List.sorted_mergeSort htrans htotal (List.range X0.length)
      have hsorted2 : List.Pairwise (fun a b => le a b = true) idxs := by
        rw [hidxs]
        exact List.Pairwise.sublist (List.take_sublist _ _) hsorted
      refine ⟨?_, ?_, X0, QV, rfl, rfl, idxs, hbnd0, ?_, hhits⟩
      · rw [hhits, List.length_map, hidxs, List.length_take]
        exact min_le_left _ _
      · intro x hx
        rw [hhits] at hx
        rcases List.mem_map.mp hx with ⟨i, hi, hxe⟩
        have hib : i < segs.length := hbnd i hi
        rw [← hxe, List.getD_eq_getElem segs dfltSeg hib]
        exact List.getElem_mem hib
      · refine hsorted2.imp ?_
        intro a b hab
        simpa only [hle, decide_eq_true_eq] using hab

/-- Witness for C3: a concrete build of one segment followed by a concrete
query with `top_k = 1`. -/
theorem query_after_build_topk_witness :
    (∀ ts r, envC.embedBatch ts = some r → r.length = ts.length) ∧
    buildS envC initState [segA] = ({ meta := [segA], index := some [[0]], dim := 1 }, true) ∧
    (0 : Int) < 1 ∧
    (queryS envC { meta := [segA], index := some [[0]], dim := 1 } "where" 1).1 = some [segA] ∧
    ([segA].length ≤ (1 : Int).toNat ∧ (∀ x ∈ [segA], x ∈ [segA]) ∧
      ∃ vecs X, ({ meta := [segA], index := some [[0]], dim := 1 } : IndexState).index = some vecs ∧
        embedM envC ["where"] = some X ∧ OrderedHits vecs (X.headD []) [segA] [segA]) := by
  have hwf : ∀ ts r, envC.embedBatch ts = some r → r.length = ts.length := by
    intro ts r h
    simp only [envC] at h
    have h2 := Option.some.inj h
    rw [← h2, List.length_map]
  have hb : buildS envC initState [segA]
      = ({ meta := [segA], index := some [[0]], dim := 1 }, true) := by
    rw [buildS_envC initState [segA] (by simp) (by simp)]
    simp
  have hq : (queryS envC { meta := [segA], index := some [[0]], dim := 1 } "where" 1).1
      = some [segA] := by
    simp only [queryS]
    rw [embedM_envC_small ["where"] (by simp) (by simp)]
    simp only [List.map_cons, List.map_nil, List.headD_cons, Int.toNat_one]
    rw [searchIdx_single]
    simp [pickMeta]
  exact ⟨hwf, hb, by decide, hq,
    query_after_build_topk envC envC initState _ [segA] "where" 1 [segA] hwf hb (by decide) hq⟩
